import Mathlib

/-!
# Verification of the Binance futures market watcher

Shallow embedding of `src/utils/binance_api_utils.py` and
`src/utils/date_utils.py`, with theorems checking the natural-language
specification against the code.

Modelling conventions:
* Parsed numeric values are rationals (`ℚ`); an upstream string field that
  `float()` would reject is the token `NumStr.malformed`.
* A JSON field that may be absent is an `Option`.
* Python exceptions that escape a function are `Except PyError`.
* Python's stable `sorted` is embedded as `List.insertionSort`, which is a
  stable sort with the same specification.
* Python's slice `l[:n]` is `pySliceFirst`, and `l[-n:]` is `pySliceLast`
  (note `l[-0:]` is the whole list, which `pySliceLast` reproduces).
* Python's insertion-ordered `dict` is an association list built by
  `dictSet` (update-in-place on an existing key, append otherwise).
-/

namespace BinanceWatch

/-- An upstream string field holding a number: either it parses to the
rational `q`, or `float()` raises `ValueError` on it. -/
inductive NumStr where
  | num (q : ℚ)
  | malformed
deriving DecidableEq

/-- Python exceptions that can escape the embedded functions. -/
inductive PyError where
  | valueError
deriving DecidableEq

/-- Python's `float(s)` on a string field: the parsed value, or `ValueError`. -/
def pyFloat : NumStr → Except PyError ℚ
  | .num q => .ok q
  | .malformed => .error .valueError

/-- `startsWithSeg pat l` : the list `l` starts with the segment `pat`. -/
def startsWithSeg {α : Type} [DecidableEq α] : List α → List α → Bool
  | [], _ => true
  | _ :: _, [] => false
  | a :: pat, b :: l => a = b && startsWithSeg pat l

/-- `containsSeg pat l` : the segment `pat` occurs contiguously inside `l`
(Python's substring test `pat in l`). -/
def containsSeg {α : Type} [DecidableEq α] (pat : List α) : List α → Bool
  | [] => startsWithSeg pat []
  | b :: l => startsWithSeg pat (b :: l) || containsSeg pat l

/-- Python's `'USDT' in s`. -/
def containsUSDT (s : String) : Bool :=
  containsSeg "USDT".toList s.toList

/-! ## Single-value fetchers (`BinanceAPI.get_price`, `get_24hr_change`,
`fetch_binance_funding_rate`) -/

/-- The JSON body answered by the price endpoint; the `price` field may be
absent. -/
structure PriceResp where
  price : Option String
deriving DecidableEq

/-- `BinanceAPI.get_price`: `data["price"]` if the key is present, else the
default string `"0"`. -/
def get_price (data : PriceResp) : String :=
  match data.price with
  | some p => p
  | none => "0"

/-- The JSON body answered by the 24h-change endpoint for one symbol; the
`priceChangePercent` field may be absent. -/
structure ChangeResp where
  priceChangePercent : Option NumStr
deriving DecidableEq

/-- `BinanceAPI.get_24hr_change`:
`float(data.get("priceChangePercent", 0))` inside `try ... except ValueError:
return None`.  A missing field becomes `float(0) = 0`; a present but
malformed field raises `ValueError`, caught to `none`. -/
def get_24hr_change (data : ChangeResp) : Option ℚ :=
  match data.priceChangePercent with
  | none => some 0
  | some ns =>
    match pyFloat ns with
    | .ok q => some q
    | .error _ => none

/-- The outcome of one HTTP attempt inside `fetch_binance_funding_rate`:
either the request dies with `aiohttp ... ClientOSError`, or a JSON body
arrives whose `lastFundingRate` field may be absent or malformed. -/
inductive FundingAttempt where
  | connError
  | resp (lastFundingRate : Option NumStr)

/-- Whether an attempt outcome is the retried connection-error class. -/
def FundingAttempt.isConnError : FundingAttempt → Bool
  | .connError => true
  | .resp _ => false

/-- What a whole call of `fetch_binance_funding_rate` did: its returned value
(or escaped exception), how many HTTP attempts it issued, and how many
1-second `asyncio.sleep(1)` waits it performed. -/
structure FundingOutcome where
  result : Except PyError (Option ℚ)
  calls : ℕ
  sleeps : ℕ

/-- The `for _ in range(3)` retry loop of `fetch_binance_funding_rate`.
`env i` is the outcome of the `i`-th HTTP attempt; `fuel` is the number of
loop iterations left.  On `ClientOSError` the code sleeps 1 second and
retries; on a response it returns `float(rate) * 100` when the field is
present (a malformed value raises `ValueError`, uncaught), `None` when
absent; when the loop exhausts its iterations it returns `None`. -/
def fetchFundingLoop (env : ℕ → FundingAttempt) : ℕ → ℕ → FundingOutcome
  | _, 0 => ⟨.ok none, 0, 0⟩
  | i, fuel + 1 =>
    match env i with
    | .connError =>
      let r := fetchFundingLoop env (i + 1) fuel
      ⟨r.result, r.calls + 1, r.sleeps + 1⟩
    | .resp none => ⟨.ok none, 1, 0⟩
    | .resp (some ns) =>
      match pyFloat ns with
      | .ok q => ⟨.ok (some (q * 100)), 1, 0⟩
      | .error e => ⟨.error e, 1, 0⟩

/-- `BinanceAPI.fetch_binance_funding_rate`, as a function of the stream of
attempt outcomes. -/
def fetch_binance_funding_rate (env : ℕ → FundingAttempt) : FundingOutcome :=
  fetchFundingLoop env 0 3

/-! ## Bulk funding rates and ranking queries -/

/-- One element of the array answered by the funding endpoint without
parameters; `lastFundingRate` may be absent. -/
structure FundingEntry where
  symbol : String
  lastFundingRate : Option NumStr
deriving DecidableEq

/-- `float(item.get("lastFundingRate", 0))`: a missing field defaults to 0,
a malformed one raises `ValueError`. -/
def entryRate (e : FundingEntry) : Except PyError ℚ :=
  match e.lastFundingRate with
  | none => .ok 0
  | some ns => pyFloat ns

/-- Python dict lookup with a default (`d.get(k, v0)`). -/
def dictGetD {α : Type} : List (String × α) → String → α → α
  | [], _, v0 => v0
  | (k', v) :: rest, k, v0 => if k' = k then v else dictGetD rest k v0

/-- Python dict assignment `d[k] = v`: update in place when the key exists,
append otherwise. -/
def dictSet {α : Type} : List (String × α) → String → α → List (String × α)
  | [], k, v => [(k, v)]
  | (k', v') :: rest, k, v =>
    if k' = k then (k, v) :: rest else (k', v') :: dictSet rest k v

/-- The dict comprehension of `fetch_all_funding_rates`, evaluated left to
right over the upstream array, with the accumulated dict. -/
def fundingDict : List (String × ℚ) → List FundingEntry →
    Except PyError (List (String × ℚ))
  | acc, [] => .ok acc
  | acc, e :: rest =>
    match entryRate e with
    | .error err => .error err
    | .ok q => fundingDict (dictSet acc e.symbol (q * 100)) rest

/-- `BinanceAPI.fetch_all_funding_rates`:
`{item["symbol"]: float(item.get("lastFundingRate", 0)) * 100 for item in data}`. -/
def fetch_all_funding_rates (data : List FundingEntry) :
    Except PyError (List (String × ℚ)) :=
  fundingDict [] data

/-- Python's stable `sorted(l, key=lambda x: x[1])` (ascending by value). -/
def pySortedByRate (l : List (String × ℚ)) : List (String × ℚ) :=
  List.insertionSort (fun a b => a.2 ≤ b.2) l

/-- Python's slice `l[:n]`. -/
def pySliceFirst {α : Type} (l : List α) (n : ℕ) : List α := l.take n

/-- Python's slice `l[-n:]` for a non-negative `n`; note `l[-0:]` is the
whole list. -/
def pySliceLast {α : Type} (l : List α) (n : ℕ) : List α :=
  if n = 0 then l else l.drop (l.length - n)

/-- `BinanceAPI.fetch_top_funded_pairs`: sort all funding rates ascending,
keep pairs whose symbol contains `"USDT"`, return the first `top_n` as the
top shorted and the last `top_n` as the top longed pairs. -/
def fetch_top_funded_pairs (data : List FundingEntry) (top_n : ℕ) :
    Except PyError (List String × List String) :=
  match fetch_all_funding_rates data with
  | .error e => .error e
  | .ok funding_rates =>
    let sorted_pairs :=
      (pySortedByRate funding_rates).filter (fun x => containsUSDT x.1)
    .ok ((pySliceFirst sorted_pairs top_n).map Prod.fst,
         (pySliceLast sorted_pairs top_n).map Prod.fst)

/-- One element of the array answered by the 24h-change endpoint without
parameters.  `get_top_gainers_and_losers` indexes `symbol` and
`priceChangePercent` directly, so both are present here. -/
structure ChangeEntry where
  symbol : String
  priceChangePercent : NumStr
deriving DecidableEq

/-- The evaluation of the sort key `float(x['priceChangePercent'])` on every
element, left to right, as Python's `sorted` performs before comparing; the
first malformed value raises `ValueError` out of the whole query. -/
def parseChanges : List ChangeEntry → Except PyError (List (String × ℚ))
  | [] => .ok []
  | e :: rest =>
    match pyFloat e.priceChangePercent with
    | .error err => .error err
    | .ok q =>
      match parseChanges rest with
      | .error err => .error err
      | .ok tail => .ok ((e.symbol, q) :: tail)

/-- Python's stable `sorted(l, key=..., reverse=True)` (descending). -/
def pySortedByChangeDesc (l : List (String × ℚ)) : List (String × ℚ) :=
  List.insertionSort (fun a b => b.2 ≤ a.2) l

/-- `BinanceAPI.get_top_gainers_and_losers`: keep the 24h-change entries
whose symbol is a known futures symbol and contains `"USDT"`, sort them
descending by `float(x['priceChangePercent'])`, return the first `top_n`
symbols as gainers and the last `top_n` as losers. -/
def get_top_gainers_and_losers (futures_symbols : List String)
    (data : List ChangeEntry) (top_n : ℕ) :
    Except PyError (List String × List String) :=
  let filtered := data.filter
    (fun item => decide (item.symbol ∈ futures_symbols) && containsUSDT item.symbol)
  match parseChanges filtered with
  | .error e => .error e
  | .ok keyed =>
    let sorted_data := pySortedByChangeDesc keyed
    .ok ((pySliceFirst sorted_data top_n).map Prod.fst,
         (pySliceLast sorted_data top_n).map Prod.fst)

/-! ## Date utilities (`src/utils/date_utils.py`) -/

/-- A UTC instant at whole-second granularity: an abstract day index plus the
number of seconds elapsed within that day (`< 86400` for a valid instant).
The abstract `day` absorbs the calendar arithmetic of
`datetime` / `timedelta(days=1)`. -/
structure UTCTime where
  day : ℕ
  secs : ℕ
deriving DecidableEq

/-- `datetime.hour` of an instant. -/
def UTCTime.hour (t : UTCTime) : ℕ := t.secs / 3600

/-- Total seconds from the (abstract) epoch, for comparing instants. -/
def UTCTime.toSecs (t : UTCTime) : ℕ := t.day * 86400 + t.secs

/-- `get_next_funding_time`: 08:00 of today when the hour is before 8, 16:00
of today when before 16, else 00:00 of the next day
(`now += timedelta(days=1)` then `datetime(year, month, day, 0)`). -/
def get_next_funding_time (now : UTCTime) : UTCTime :=
  if now.hour < 8 then ⟨now.day, 8 * 3600⟩
  else if now.hour < 16 then ⟨now.day, 16 * 3600⟩
  else ⟨now.day + 1, 0⟩

/-- The instants at which funding settles: 00:00, 08:00, 16:00 UTC of any
day. -/
def isFundingSettlement (t : UTCTime) : Prop :=
  t.secs = 0 ∨ t.secs = 8 * 3600 ∨ t.secs = 16 * 3600

instance (t : UTCTime) : Decidable (isFundingSettlement t) := by
  unfold isFundingSettlement; infer_instance

/-- Python's `f"{n:02d}"` for the integers this program prints: two digits
with a leading zero below 10. -/
def pad2 (n : ℤ) : String :=
  if 0 ≤ n ∧ n < 10 then "0" ++ toString n else toString n

/-- `format_timedelta` on a duration of `total_seconds` whole seconds:
`divmod(total_seconds, 3600)` then `divmod(remainder, 60)`, rendered as
`HH:MM:SS`.  Python's floored `divmod` is `ℤ`'s `/` and `%` (`Int.ediv` /
`Int.emod`). -/
def format_timedelta (total_seconds : ℤ) : String :=
  let hours := total_seconds / 3600
  let remainder := total_seconds % 3600
  let minutes := remainder / 60
  let seconds := remainder % 60
  pad2 hours ++ ":" ++ pad2 minutes ++ ":" ++ pad2 seconds

/-! ## The fan-out pair fetch (`BinanceAPI.fetch_pair_data`) -/

/-- One enqueued coroutine of `fetch_pair_data`'s `tasks` list. -/
inductive FetchTask where
  | price (pair : String)
  | funding (pair : String)
  | change (pair : String)
deriving DecidableEq

/-- A value produced by one task: `get_price` yields a string,
`fetch_binance_funding_rate` and `get_24hr_change` yield optional
rationals. -/
inductive FetchValue where
  | vs (s : String)
  | vq (q : Option ℚ)
deriving DecidableEq

/-- The upstream market during one fetch cycle, abstracted to the value each
single-symbol fetcher returns for each symbol (each distinct task is awaited
exactly once by `asyncio.gather`, so one value per symbol and kind). -/
structure CycleEnv where
  priceOf : String → String
  fundingOf : String → Option ℚ
  changeOf : String → Option ℚ

/-- Running one enqueued task under a cycle environment. -/
def execTask (env : CycleEnv) : FetchTask → FetchValue
  | .price p => .vs (env.priceOf p)
  | .funding p => .vq (env.fundingOf p)
  | .change p => .vq (env.changeOf p)

/-- One row of a group's output: `(pair, price, funding_rate, change_24hr)`. -/
abbrev Snapshot := String × FetchValue × FetchValue × FetchValue

/-- The mutable state of `fetch_pair_data`'s first loop. -/
structure FPState where
  tasks : List FetchTask
  pair_to_list : List (String × List String)
  seen : List String
  dups : ℕ
  pairs_names : List String

/-- The empty starting state of the first loop. -/
def fpInit : FPState := ⟨[], [], [], 0, []⟩

/-- The body of the first loop for one `pair` inside the group `list_name`:
record the reference in `pair_to_list`; then either count a duplicate, or
enqueue the three fetch tasks and remember the symbol as seen. -/
def fpStep (st : FPState) (list_name pair : String) : FPState :=
  let st := { st with
    pair_to_list :=
      dictSet st.pair_to_list pair
        (dictGetD st.pair_to_list pair [] ++ [list_name]) }
  if pair ∈ st.seen then
    { st with dups := st.dups + 1 }
  else
    { st with
      tasks := st.tasks ++ [.price pair, .funding pair, .change pair],
      seen := st.seen ++ [pair],
      pairs_names := st.pairs_names ++ [pair] }

/-- The first (task-building) double loop of `fetch_pair_data` over the
supplied groups, in their call-site order. -/
def fetchPairPhase1 (groups : List (String × List String)) : FPState :=
  groups.foldl (fun st g => g.2.foldl (fun st p => fpStep st g.1 p) st) fpInit

/-- `BinanceAPI.fetch_pair_data` for the ordered keyword groups `groups`
under the cycle environment `env`.  Returns the per-group data (as a total
map from group name to its output list, empty for unknown names — Python
initialises every supplied group name to `[]`) together with
`len(pairs_names) + dups`.  The reassembly loop walks
`range(0, len(results), 3)`; since the first loop enqueues exactly three
tasks per distinct symbol, `len(results) = 3 * len(pairs_names)` (lemma
`tasks_length_eq` below), so the loop has one iteration per distinct symbol:
here `k` counts triples and `j = 3k`.  Each iteration reads the three
results of the `k`-th distinct symbol and appends the composed row to every
group recorded for that symbol in `pair_to_list`. -/
def fetch_pair_data (env : CycleEnv) (groups : List (String × List String)) :
    (String → List Snapshot) × ℕ :=
  let st := fetchPairPhase1 groups
  let results := st.tasks.map (execTask env)
  let data :=
    (List.range st.pairs_names.length).foldl
      (fun data k =>
        let price := results.getD (3 * k) (.vs "")
        let funding_rate := results.getD (3 * k + 1) (.vs "")
        let change_24hr := results.getD (3 * k + 2) (.vs "")
        let pair := st.pairs_names.getD k ""
        let list_names := dictGetD st.pair_to_list pair []
        list_names.foldl
          (fun d l_name => fun g =>
            if g = l_name then d g ++ [(pair, price, funding_rate, change_24hr)]
            else d g)
          data)
      (fun _ => [])
  (data, st.pairs_names.length + st.dups)

/-! ### Reference descriptions of the loop, used to state the theorems -/

/-- All `(group, symbol)` references, flattened in iteration order. -/
def refsList (groups : List (String × List String)) : List (String × String) :=
  groups.flatMap (fun g => g.2.map (fun p => (g.1, p)))

/-- The distinct symbols of a reference list in first-occurrence order. -/
def namesOf (refs : List (String × String)) : List String :=
  refs.foldl (fun acc r => if r.2 ∈ acc then acc else acc ++ [r.2]) []

/-- The group names that reference a symbol, in order, with multiplicity. -/
def groupsOfSym (refs : List (String × String)) (p : String) : List String :=
  (refs.filter (fun r => r.2 = p)).map Prod.fst

/-- The composed row `fetch_pair_data` builds for one symbol. -/
def snapOf (env : CycleEnv) (p : String) : Snapshot :=
  (p, .vs (env.priceOf p), .vq (env.fundingOf p), .vq (env.changeOf p))

/-- The first loop, re-indexed over the flattened reference list. -/
def phase1Refs (refs : List (String × String)) : FPState :=
  refs.foldl (fun st r => fpStep st r.1 r.2) fpInit

lemma dictGetD_dictSet {α : Type} (d : List (String × α)) (k k' : String)
    (v : α) (v0 : α) :
    dictGetD (dictSet d k v) k' v0 = if k = k' then v else dictGetD d k' v0 := by
  induction d with
  | nil =>
    by_cases h : k = k' <;> simp [dictSet, dictGetD, h]
  | cons kv rest ih =>
    obtain ⟨k₁, v₁⟩ := kv
    by_cases h1 : k₁ = k
    · subst h1
      by_cases h2 : k₁ = k' <;> simp [dictSet, dictGetD, h2]
    · by_cases h2 : k₁ = k'
      · subst h2
        have hkk : ¬ k = k₁ := fun h => h1 h.symm
        simp [dictSet, dictGetD, h1, hkk]
      · simp [dictSet, dictGetD, h1, h2, ih]

lemma fetchPairPhase1_eq (groups : List (String × List String)) :
    fetchPairPhase1 groups = phase1Refs (refsList groups) := by
  suffices h : ∀ st0 : FPState,
      groups.foldl (fun st g => g.2.foldl (fun st p => fpStep st g.1 p) st) st0
        = (refsList groups).foldl (fun st r => fpStep st r.1 r.2) st0 from
    h fpInit
  induction groups with
  | nil => intro st0; rfl
  | cons gp gs ih =>
    intro st0
    show gs.foldl _ (gp.2.foldl (fun st p => fpStep st gp.1 p) st0) = _
    rw [ih]
    simp only [refsList, List.flatMap_cons, List.foldl_append, List.foldl_map]

lemma namesOf_concat (refs : List (String × String)) (r : String × String) :
    namesOf (refs ++ [r])
      = if r.2 ∈ namesOf refs then namesOf refs else namesOf refs ++ [r.2] := by
  unfold namesOf
  rw [List.foldl_append]
  rfl

lemma groupsOfSym_concat (refs : List (String × String)) (r : String × String)
    (p : String) :
    groupsOfSym (refs ++ [r]) p
      = groupsOfSym refs p ++ if r.2 = p then [r.1] else [] := by
  unfold groupsOfSym
  rw [List.filter_append, List.map_append]
  by_cases h : r.2 = p <;> simp [h]

lemma namesOf_nodup (refs : List (String × String)) : (namesOf refs).Nodup := by
  induction refs using List.reverseRecOn with
  | nil => simp [namesOf]
  | append_singleton refs r ih =>
    rw [namesOf_concat]
    by_cases h : r.2 ∈ namesOf refs
    · simpa [h] using ih
    · rw [if_neg h]
      exact ih.append (List.nodup_singleton _)
        (by simp [List.disjoint_singleton, h])

lemma mem_namesOf (refs : List (String × String)) :
    ∀ x, x ∈ namesOf refs ↔ x ∈ refs.map Prod.snd := by
  induction refs using List.reverseRecOn with
  | nil => simp [namesOf]
  | append_singleton refs r ih =>
    intro x
    rw [namesOf_concat]
    by_cases h : r.2 ∈ namesOf refs
    · rw [if_pos h]
      have hr : r.2 ∈ refs.map Prod.snd := (ih r.2).1 h
      simp only [List.map_append, List.mem_append, List.map_cons, List.map_nil,
        List.mem_cons, List.not_mem_nil, or_false]
      constructor
      · intro hx; exact Or.inl ((ih x).1 hx)
      · rintro (hx | hx)
        · exact (ih x).2 hx
        · exact (ih x).2 (hx ▸ hr)
    · rw [if_neg h]
      simp only [List.map_append, List.mem_append, List.map_cons, List.map_nil,
        List.mem_cons, List.not_mem_nil, or_false, List.mem_singleton]
      simp [ih x]

/-- The complete characterisation of the first loop's state in terms of the
flattened reference list: `seen` and `pairs_names` are the distinct symbols
in first-occurrence order, `tasks` holds the three fetches of each distinct
symbol once, `dups` counts the repeated references, and `pair_to_list` maps
each symbol to the groups referencing it, in order with multiplicity. -/
lemma phase1Refs_spec (refs : List (String × String)) :
    (phase1Refs refs).seen = namesOf refs ∧
    (phase1Refs refs).pairs_names = namesOf refs ∧
    (phase1Refs refs).tasks
      = (namesOf refs).flatMap (fun p => [.price p, .funding p, .change p]) ∧
    (phase1Refs refs).dups + (namesOf refs).length = refs.length ∧
    ∀ p, dictGetD (phase1Refs refs).pair_to_list p [] = groupsOfSym refs p := by
  induction refs using List.reverseRecOn with
  | nil =>
    refine ⟨rfl, rfl, rfl, rfl, fun p => ?_⟩
    simp [phase1Refs, fpInit, dictGetD, groupsOfSym]
  | append_singleton refs r ih =>
    obtain ⟨hseen, hpairs, htasks, hdups, hptl⟩ := ih
    have hstep : phase1Refs (refs ++ [r]) = fpStep (phase1Refs refs) r.1 r.2 := by
      unfold phase1Refs
      rw [List.foldl_append]
      rfl
    by_cases hmem : r.2 ∈ namesOf refs
    · have hname : namesOf (refs ++ [r]) = namesOf refs := by
        rw [namesOf_concat, if_pos hmem]
      rw [hstep]
      unfold fpStep
      rw [if_pos (by rw [hseen]; exact hmem)]
      refine ⟨by simpa [hname] using hseen, by simpa [hname] using hpairs,
        by simpa [hname] using htasks, ?_, fun p => ?_⟩
      · simp only [hname, List.length_append, List.length_cons, List.length_nil]
        omega
      · show dictGetD (dictSet (phase1Refs refs).pair_to_list r.2
          (dictGetD (phase1Refs refs).pair_to_list r.2 [] ++ [r.1])) p [] = _
        rw [dictGetD_dictSet, groupsOfSym_concat]
        by_cases hp : r.2 = p
        · rw [if_pos hp, hptl r.2, if_pos hp, hp]
        · rw [if_neg hp, hptl p, if_neg hp, List.append_nil]
    · have hname : namesOf (refs ++ [r]) = namesOf refs ++ [r.2] := by
        rw [namesOf_concat, if_neg hmem]
      rw [hstep]
      unfold fpStep
      rw [if_neg (by rw [hseen]; exact hmem)]
      refine ⟨by simp [hname, hseen], by simp [hname, hpairs], ?_, ?_, fun p => ?_⟩
      · show (phase1Refs refs).tasks ++ _ = _
        rw [htasks, hname, List.flatMap_append]
        rfl
      · show (phase1Refs refs).dups + _ = _
        simp only [hname, List.length_append, List.length_cons, List.length_nil]
        omega
      · show dictGetD (dictSet (phase1Refs refs).pair_to_list r.2
          (dictGetD (phase1Refs refs).pair_to_list r.2 [] ++ [r.1])) p [] = _
        rw [dictGetD_dictSet, groupsOfSym_concat]
        by_cases hp : r.2 = p
        · rw [if_pos hp, hptl r.2, if_pos hp, hp]
        · rw [if_neg hp, hptl p, if_neg hp, List.append_nil]

lemma flatMap_trip_length (ns : List String) :
    (ns.flatMap (fun p => [FetchTask.price p, FetchTask.funding p,
      FetchTask.change p])).length = 3 * ns.length := by
  induction ns with
  | nil => rfl
  | cons q ns ih =>
    simp only [List.flatMap_cons, List.length_append, ih, List.length_cons,
      List.length_nil]
    omega

/-- Each distinct symbol contributes exactly three enqueued tasks, so the
gathered `results` list has length `3 * len(pairs_names)`: the reassembly
loop `range(0, len(results), 3)` makes one iteration per distinct symbol. -/
lemma tasks_length_eq (groups : List (String × List String)) :
    (fetchPairPhase1 groups).tasks.length
      = 3 * (fetchPairPhase1 groups).pairs_names.length := by
  obtain ⟨_, hpairs, htasks, _, _⟩ := phase1Refs_spec (refsList groups)
  rw [fetchPairPhase1_eq, htasks, hpairs, flatMap_trip_length]

lemma innerFoldl_apply (row : Snapshot) (lns : List String) :
    ∀ (d : String → List Snapshot) (g : String),
      (lns.foldl (fun d l_name => fun g' =>
          if g' = l_name then d g' ++ [row] else d g') d) g
        = d g ++ List.replicate (lns.count g) row := by
  induction lns with
  | nil => intro d g; simp
  | cons ln lns ih =>
    intro d g
    rw [List.foldl_cons, ih]
    by_cases h : g = ln
    · subst h
      show (if g = g then d g ++ [row] else d g) ++ List.replicate (lns.count g) row
          = d g ++ List.replicate ((g :: lns).count g) row
      rw [if_pos rfl, List.count_cons_self, List.append_assoc,
        List.singleton_append, ← List.replicate_succ]
    · show (if g = ln then d g ++ [row] else d g) ++ List.replicate (lns.count g) row
          = d g ++ List.replicate ((ln :: lns).count g) row
      rw [if_neg h, List.count_cons_of_ne h]

lemma reassemble_loop (env : CycleEnv) (G : String → List String)
    (names : List String) :
    ∀ (d0 : String → List Snapshot) (g : String),
      ((List.range names.length).foldl
          (fun d k =>
            (G (names.getD k "")).foldl
              (fun d l_name => fun g' =>
                if g' = l_name then
                  d g' ++
                    [(names.getD k "",
                      ((names.flatMap (fun p => [FetchTask.price p,
                        FetchTask.funding p, FetchTask.change p])).map
                          (execTask env)).getD (3 * k) (FetchValue.vs ""),
                      ((names.flatMap (fun p => [FetchTask.price p,
                        FetchTask.funding p, FetchTask.change p])).map
                          (execTask env)).getD (3 * k + 1) (FetchValue.vs ""),
                      ((names.flatMap (fun p => [FetchTask.price p,
                        FetchTask.funding p, FetchTask.change p])).map
                          (execTask env)).getD (3 * k + 2) (FetchValue.vs ""))]
                else d g')
              d)
          d0) g
      = d0 g ++ names.flatMap
          (fun p => List.replicate ((G p).count g) (snapOf env p)) := by
  induction names using List.reverseRecOn with
  | nil => intro d0 g; simp
  | append_singleton ns p ih =>
    intro d0 g
    have hR : ((ns ++ [p]).flatMap (fun q => [FetchTask.price q,
        FetchTask.funding q, FetchTask.change q])).map (execTask env)
        = (ns.flatMap (fun q => [FetchTask.price q, FetchTask.funding q,
            FetchTask.change q])).map (execTask env)
          ++ [.vs (env.priceOf p), .vq (env.fundingOf p), .vq (env.changeOf p)] := by
      rw [List.flatMap_append, List.map_append]
      rfl
    have hRlen : ((ns.flatMap (fun q => [FetchTask.price q, FetchTask.funding q,
        FetchTask.change q])).map (execTask env)).length = 3 * ns.length := by
      rw [List.length_map, flatMap_trip_length]
    have hlen : (ns ++ [p]).length = ns.length + 1 := by simp
    rw [hlen, List.range_succ, List.foldl_append]
    have hpre : (List.range ns.length).foldl
        (fun d k =>
          (G ((ns ++ [p]).getD k "")).foldl
            (fun d l_name => fun g' =>
              if g' = l_name then
                d g' ++
                  [((ns ++ [p]).getD k "",
                    (((ns ++ [p]).flatMap (fun q => [FetchTask.price q,
                      FetchTask.funding q, FetchTask.change q])).map
                        (execTask env)).getD (3 * k) (FetchValue.vs ""),
                    (((ns ++ [p]).flatMap (fun q => [FetchTask.price q,
                      FetchTask.funding q, FetchTask.change q])).map
                        (execTask env)).getD (3 * k + 1) (FetchValue.vs ""),
                    (((ns ++ [p]).flatMap (fun q => [FetchTask.price q,
                      FetchTask.funding q, FetchTask.change q])).map
                        (execTask env)).getD (3 * k + 2) (FetchValue.vs ""))]
              else d g')
            d)
        d0
      = (List.range ns.length).foldl
          (fun d k =>
            (G (ns.getD k "")).foldl
              (fun d l_name => fun g' =>
                if g' = l_name then
                  d g' ++
                    [(ns.getD k "",
                      ((ns.flatMap (fun q => [FetchTask.price q,
                        FetchTask.funding q, FetchTask.change q])).map
                          (execTask env)).getD (3 * k) (FetchValue.vs ""),
                      ((ns.flatMap (fun q => [FetchTask.price q,
                        FetchTask.funding q, FetchTask.change q])).map
                          (execTask env)).getD (3 * k + 1) (FetchValue.vs ""),
                      ((ns.flatMap (fun q => [FetchTask.price q,
                        FetchTask.funding q, FetchTask.change q])).map
                          (execTask env)).getD (3 * k + 2) (FetchValue.vs ""))]
                else d g')
              d)
          d0 := by
      apply List.foldl_ext
      intro d k hk
      have hk' : k < ns.length := List.mem_range.1 hk
      have hname : (ns ++ [p]).getD k "" = ns.getD k "" :=
        List.getD_append _ _ _ _ hk'
      have hv0 : (((ns ++ [p]).flatMap (fun q => [FetchTask.price q,
          FetchTask.funding q, FetchTask.change q])).map (execTask env)).getD
            (3 * k) (FetchValue.vs "")
          = ((ns.flatMap (fun q => [FetchTask.price q, FetchTask.funding q,
              FetchTask.change q])).map (execTask env)).getD
            (3 * k) (FetchValue.vs "") := by
        rw [hR]
        exact List.getD_append _ _ _ _ (by omega)
      have hv1 : (((ns ++ [p]).flatMap (fun q => [FetchTask.price q,
          FetchTask.funding q, FetchTask.change q])).map (execTask env)).getD
            (3 * k + 1) (FetchValue.vs "")
          = ((ns.flatMap (fun q => [FetchTask.price q, FetchTask.funding q,
              FetchTask.change q])).map (execTask env)).getD
            (3 * k + 1) (FetchValue.vs "") := by
        rw [hR]
        exact List.getD_append _ _ _ _ (by omega)
      have hv2 : (((ns ++ [p]).flatMap (fun q => [FetchTask.price q,
          FetchTask.funding q, FetchTask.change q])).map (execTask env)).getD
            (3 * k + 2) (FetchValue.vs "")
          = ((ns.flatMap (fun q => [FetchTask.price q, FetchTask.funding q,
              FetchTask.change q])).map (execTask env)).getD
            (3 * k + 2) (FetchValue.vs "") := by
        rw [hR]
        exact List.getD_append _ _ _ _ (by omega)
      rw [hname, hv0, hv1, hv2]
    rw [hpre]
    rw [List.foldl_cons, List.foldl_nil]
    have hp : (ns ++ [p]).getD ns.length "" = p := by
      rw [List.getD_append_right _ _ _ _ le_rfl]
      simp
    have hv0 : (((ns ++ [p]).flatMap (fun q => [FetchTask.price q,
        FetchTask.funding q, FetchTask.change q])).map (execTask env)).getD
          (3 * ns.length) (FetchValue.vs "") = .vs (env.priceOf p) := by
      rw [hR, List.getD_append_right _ _ _ _ (by omega), hRlen]
      simp
    have hv1 : (((ns ++ [p]).flatMap (fun q => [FetchTask.price q,
        FetchTask.funding q, FetchTask.change q])).map (execTask env)).getD
          (3 * ns.length + 1) (FetchValue.vs "") = .vq (env.fundingOf p) := by
      rw [hR, List.getD_append_right _ _ _ _ (by omega), hRlen]
      have h21 : 3 * ns.length + 1 - 3 * ns.length = 1 := by omega
      rw [h21]
      rfl
    have hv2 : (((ns ++ [p]).flatMap (fun q => [FetchTask.price q,
        FetchTask.funding q, FetchTask.change q])).map (execTask env)).getD
          (3 * ns.length + 2) (FetchValue.vs "") = .vq (env.changeOf p) := by
      rw [hR, List.getD_append_right _ _ _ _ (by omega), hRlen]
      have h22 : 3 * ns.length + 2 - 3 * ns.length = 2 := by omega
      rw [h22]
      rfl
    rw [hp, hv0, hv1, hv2]
    rw [innerFoldl_apply, ih, List.flatMap_append, ← List.append_assoc]
    simp [snapOf]

/-- The per-group output of `fetch_pair_data`: for each distinct symbol in
first-occurrence order, one copy of its composed row per reference by the
group `g`. -/
lemma fetch_pair_data_fst (env : CycleEnv) (groups : List (String × List String))
    (g : String) :
    (fetch_pair_data env groups).1 g
      = (namesOf (refsList groups)).flatMap
          (fun p => List.replicate ((groupsOfSym (refsList groups) p).count g)
            (snapOf env p)) := by
  obtain ⟨hseen, hpairs, htasks, hdups, hptl⟩ := phase1Refs_spec (refsList groups)
  show ((List.range (fetchPairPhase1 groups).pairs_names.length).foldl
      (fun d k =>
        (dictGetD (fetchPairPhase1 groups).pair_to_list
            ((fetchPairPhase1 groups).pairs_names.getD k "") []).foldl
          (fun d l_name => fun g' =>
            if g' = l_name then
              d g' ++
                [((fetchPairPhase1 groups).pairs_names.getD k "",
                  ((fetchPairPhase1 groups).tasks.map (execTask env)).getD
                    (3 * k) (FetchValue.vs ""),
                  ((fetchPairPhase1 groups).tasks.map (execTask env)).getD
                    (3 * k + 1) (FetchValue.vs ""),
                  ((fetchPairPhase1 groups).tasks.map (execTask env)).getD
                    (3 * k + 2) (FetchValue.vs ""))]
            else d g')
          d)
      (fun _ => [])) g = _
  rw [fetchPairPhase1_eq, hpairs, htasks]
  simp only [hptl]
  rw [reassemble_loop]
  simp

lemma count_trip_price (ns : List String) (p : String) :
    (ns.flatMap (fun q => [FetchTask.price q, FetchTask.funding q,
      FetchTask.change q])).count (.price p) = ns.count p := by
  induction ns with
  | nil => rfl
  | cons q ns ih =>
    rw [List.flatMap_cons, List.count_append, ih]
    by_cases h : p = q
    · subst h
      simp [List.count_cons]
      omega
    · simp [List.count_cons, h]

lemma count_trip_funding (ns : List String) (p : String) :
    (ns.flatMap (fun q => [FetchTask.price q, FetchTask.funding q,
      FetchTask.change q])).count (.funding p) = ns.count p := by
  induction ns with
  | nil => rfl
  | cons q ns ih =>
    rw [List.flatMap_cons, List.count_append, ih]
    by_cases h : p = q
    · subst h
      simp [List.count_cons]
      omega
    · simp [List.count_cons, h]

lemma count_trip_change (ns : List String) (p : String) :
    (ns.flatMap (fun q => [FetchTask.price q, FetchTask.funding q,
      FetchTask.change q])).count (.change p) = ns.count p := by
  induction ns with
  | nil => rfl
  | cons q ns ih =>
    rw [List.flatMap_cons, List.count_append, ih]
    by_cases h : p = q
    · subst h
      simp [List.count_cons]
      omega
    · simp [List.count_cons, h]

lemma groupsOfSym_cons_pos (r : String × String) (rest : List (String × String))
    (p : String) (h : r.2 = p) :
    groupsOfSym (r :: rest) p = r.1 :: groupsOfSym rest p := by
  unfold groupsOfSym
  rw [List.filter_cons_of_pos (by simpa using h), List.map_cons]

lemma groupsOfSym_cons_neg (r : String × String) (rest : List (String × String))
    (p : String) (h : ¬ r.2 = p) :
    groupsOfSym (r :: rest) p = groupsOfSym rest p := by
  unfold groupsOfSym
  rw [List.filter_cons_of_neg (by simpa using h)]

lemma groupsOfSym_count (refs : List (String × String)) (g p : String) :
    (groupsOfSym refs p).count g = refs.count (g, p) := by
  induction refs with
  | nil => rfl
  | cons r rest ih =>
    obtain ⟨r1, r2⟩ := r
    by_cases h2 : r2 = p
    · subst h2
      rw [groupsOfSym_cons_pos _ _ _ rfl]
      by_cases h1 : g = r1
      · subst h1
        rw [List.count_cons_self, List.count_cons_self, ih]
      · rw [List.count_cons_of_ne h1,
          List.count_cons_of_ne (by simp [Prod.ext_iff, h1]), ih]
    · rw [groupsOfSym_cons_neg _ _ _ h2, ih,
        List.count_cons_of_ne (fun hh => h2 (congrArg Prod.snd hh).symm)]

lemma sum_map_add_nat {α : Type} (l : List α) (f h : α → ℕ) :
    (l.map (fun a => f a + h a)).sum = (l.map f).sum + (l.map h).sum := by
  induction l with
  | nil => rfl
  | cons a l ih =>
    simp only [List.map_cons, List.sum_cons, ih]
    omega

lemma sum_indicator_count (names : List String) (x : String) :
    (names.map (fun p => if x = p then 1 else 0)).sum = names.count x := by
  induction names with
  | nil => rfl
  | cons q names ih =>
    simp only [List.map_cons, List.sum_cons, ih]
    by_cases h : x = q
    · subst h
      rw [List.count_cons_self, if_pos rfl]
      omega
    · rw [List.count_cons_of_ne h, if_neg h]
      omega

lemma sum_count_refs (names : List String) (g : String)
    (refs : List (String × String)) (hnd : names.Nodup)
    (hcov : ∀ r ∈ refs, r.2 ∈ names) :
    (names.map (fun p => refs.count (g, p))).sum
      = refs.countP (fun r => decide (r.1 = g)) := by
  induction refs with
  | nil => simp
  | cons r rest ih =>
    have hcov' : ∀ x ∈ rest, x.2 ∈ names :=
      fun x hx => hcov x (List.mem_cons_of_mem _ hx)
    have hstep : ∀ p, ((r :: rest).count (g, p))
        = rest.count (g, p) + (if (g, p) = r then 1 else 0) := by
      intro p
      by_cases h : (g, p) = r
      · rw [← h, List.count_cons_self, if_pos rfl]
      · rw [List.count_cons_of_ne h, if_neg h]
        omega
    rw [List.map_congr_left (fun p _ => hstep p), sum_map_add_nat,
      ih hcov', List.countP_cons]
    congr 1
    by_cases hg : r.1 = g
    · have hiff : ∀ p, ((g, p) = r) ↔ (r.2 = p) := by
        intro p
        rw [Prod.ext_iff]
        constructor
        · rintro ⟨_, h2⟩; exact h2.symm
        · intro h2; exact ⟨hg.symm, h2.symm⟩
      have hmapeq : (names.map (fun p => if (g, p) = r then 1 else 0))
          = names.map (fun p => if r.2 = p then 1 else 0) :=
        List.map_congr_left (fun p _ => if_congr (hiff p) rfl rfl)
      rw [hmapeq, sum_indicator_count,
        List.count_eq_one_of_mem hnd (hcov r (List.mem_cons_self r rest)),
        if_pos (by simpa using hg)]
    · have hmapeq : (names.map (fun p => if (g, p) = r then 1 else 0))
          = names.map (fun _ => 0) :=
        List.map_congr_left (fun p _ =>
          if_neg (fun hh => hg (congrArg Prod.fst hh).symm))
      rw [hmapeq, if_neg (by simpa using hg)]
      simp

lemma refsList_cons (gp : String × List String)
    (gs : List (String × List String)) :
    refsList (gp :: gs) = gp.2.map (fun p => (gp.1, p)) ++ refsList gs := by
  unfold refsList
  rw [List.flatMap_cons]

lemma mem_refsList_fst (groups : List (String × List String))
    (r : String × String) (h : r ∈ refsList groups) :
    r.1 ∈ groups.map Prod.fst := by
  unfold refsList at h
  rw [List.mem_flatMap] at h
  obtain ⟨gp, hgp, hr⟩ := h
  rw [List.mem_map] at hr
  obtain ⟨p, _, he⟩ := hr
  exact List.mem_map.2 ⟨gp, hgp, by rw [← he]⟩

lemma countP_const_true {α : Type} (l : List α) :
    l.countP (fun _ => true) = l.length := by
  induction l with
  | nil => rfl
  | cons a l ih => rw [List.countP_cons, ih, List.length_cons, if_pos rfl]

lemma countP_refsList (g : String) (gl : List String)
    (groups : List (String × List String))
    (hnd : (groups.map Prod.fst).Nodup) (hmem : (g, gl) ∈ groups) :
    (refsList groups).countP (fun r => decide (r.1 = g)) = gl.length := by
  induction groups with
  | nil => cases hmem
  | cons gp gs ih =>
    rw [List.map_cons, List.nodup_cons] at hnd
    obtain ⟨hhead, hnd'⟩ := hnd
    rw [refsList_cons, List.countP_append, List.countP_map]
    rcases List.mem_cons.1 hmem with heq | htail
    · subst heq
      have h1 : gl.countP ((fun r : String × String => decide (r.1 = g)) ∘
          (fun p => (g, p))) = gl.length := by
        rw [show ((fun r : String × String => decide (r.1 = g)) ∘
            (fun p : String => (g, p))) = (fun _ => true) from
          funext (fun p => by simp)]
        exact countP_const_true gl
      have h2 : (refsList gs).countP (fun r => decide (r.1 = g)) = 0 := by
        rw [List.countP_eq_zero]
        intro r hr
        simp only [decide_eq_true_eq]
        intro hrg
        exact hhead (hrg ▸ mem_refsList_fst gs r hr)
      rw [h1, h2]
      omega
    · have hg : ¬ gp.1 = g := by
        intro h
        exact hhead (h ▸ List.mem_map.2 ⟨(g, gl), htail, rfl⟩)
      have h1 : gp.2.countP ((fun r : String × String => decide (r.1 = g)) ∘
          (fun p => (gp.1, p))) = 0 := by
        rw [List.countP_eq_zero]
        intro p _
        simpa using hg
      rw [h1, ih hnd' htail]
      omega

lemma fetch_pair_data_length (env : CycleEnv)
    (groups : List (String × List String)) (g : String) (gl : List String)
    (hnd : (groups.map Prod.fst).Nodup) (hmem : (g, gl) ∈ groups) :
    ((fetch_pair_data env groups).1 g).length = gl.length := by
  rw [fetch_pair_data_fst, List.length_flatMap]
  have h1 : ((namesOf (refsList groups)).map (List.length ∘ fun p =>
      List.replicate ((groupsOfSym (refsList groups) p).count g)
        (snapOf env p)))
      = (namesOf (refsList groups)).map
          (fun p => (refsList groups).count (g, p)) :=
    List.map_congr_left (fun p _ => by
      show (List.replicate ((groupsOfSym (refsList groups) p).count g)
        (snapOf env p)).length = _
      rw [List.length_replicate, groupsOfSym_count])
  rw [h1, sum_count_refs _ _ _ (namesOf_nodup _)
    (fun r hr => (mem_namesOf _ r.2).2 (List.mem_map.2 ⟨r, hr, rfl⟩)),
    countP_refsList g gl groups hnd hmem]

lemma filter_fst_flatMap (env : CycleEnv) (c : String → ℕ) (p : String)
    (ns : List String) (hnd : ns.Nodup) :
    (ns.flatMap (fun q => List.replicate (c q) (snapOf env q))).filter
        (fun s => decide (s.1 = p))
      = if p ∈ ns then List.replicate (c p) (snapOf env p) else [] := by
  induction ns with
  | nil => simp
  | cons q ns ih =>
    rw [List.flatMap_cons, List.filter_append]
    obtain ⟨hq, hnd'⟩ := List.nodup_cons.1 hnd
    have hhead : ((List.replicate (c q) (snapOf env q)).filter
        (fun s => decide (s.1 = p)))
        = if q = p then List.replicate (c q) (snapOf env q) else [] := by
      by_cases h : q = p
      · rw [if_pos h]
        apply List.filter_eq_self.2
        intro s hs
        rw [List.eq_of_mem_replicate hs]
        simpa [snapOf] using h
      · rw [if_neg h]
        apply List.filter_eq_nil_iff.2
        intro s hs
        rw [List.eq_of_mem_replicate hs]
        simpa [snapOf] using h
    rw [hhead, ih hnd']
    by_cases h : q = p
    · subst h
      rw [if_pos rfl, if_neg hq, if_pos (List.mem_cons_self q ns),
        List.append_nil]
    · have hmem : (p ∈ q :: ns) ↔ (p ∈ ns) := by
        rw [List.mem_cons]
        constructor
        · rintro (hh | hh)
          · exact absurd hh.symm h
          · exact hh
        · exact Or.inr
      rw [if_neg h, List.nil_append]
      exact (if_congr hmem rfl rfl).symm

/-- The rows of group `g`'s output carrying symbol `p` are exactly
`count of (g, p) references` identical copies of `p`'s composed row. -/
lemma fetch_pair_data_filter (env : CycleEnv)
    (groups : List (String × List String)) (g p : String) :
    ((fetch_pair_data env groups).1 g).filter (fun s => decide (s.1 = p))
      = List.replicate ((refsList groups).count (g, p)) (snapOf env p) := by
  rw [fetch_pair_data_fst, filter_fst_flatMap env _ p _ (namesOf_nodup _)]
  by_cases h : p ∈ namesOf (refsList groups)
  · rw [if_pos h, groupsOfSym_count]
  · rw [if_neg h]
    have hz : (refsList groups).count (g, p) = 0 := by
      rw [List.count_eq_zero]
      intro hmem
      exact h ((mem_namesOf _ p).2 (List.mem_map.2 ⟨(g, p), hmem, rfl⟩))
    rw [hz]
    rfl

/-! ## Lemmas about the funding-rate retry loop -/

lemma fetchFundingLoop_calls_le (env : ℕ → FundingAttempt) :
    ∀ (fuel i : ℕ), (fetchFundingLoop env i fuel).calls ≤ fuel := by
  intro fuel
  induction fuel with
  | zero => intro i; simp [fetchFundingLoop]
  | succ n ih =>
    intro i
    cases h : env i with
    | connError =>
      simp only [fetchFundingLoop, h]
      exact Nat.succ_le_succ (ih (i + 1))
    | resp lfr =>
      cases lfr with
      | none => simp [fetchFundingLoop, h]
      | some ns =>
        cases hN : pyFloat ns with
        | ok q => simp [fetchFundingLoop, h, hN]
        | error e => simp [fetchFundingLoop, h, hN]

lemma fetchFundingLoop_sleeps (env : ℕ → FundingAttempt) :
    ∀ (fuel i : ℕ), (fetchFundingLoop env i fuel).sleeps
      = (List.range (fetchFundingLoop env i fuel).calls).countP
          (fun k => (env (i + k)).isConnError) := by
  intro fuel
  induction fuel with
  | zero => intro i; simp [fetchFundingLoop]
  | succ n ih =>
    intro i
    cases h : env i with
    | connError =>
      simp only [fetchFundingLoop, h]
      rw [List.range_succ_eq_map, List.countP_cons, List.countP_map]
      have hc : ((fun k => (env (i + k)).isConnError) ∘ (fun x => x + 1))
          = fun k => (env (i + 1 + k)).isConnError := by
        funext k
        show (env (i + (k + 1))).isConnError = (env (i + 1 + k)).isConnError
        rw [show i + (k + 1) = i + 1 + k from by omega]
      rw [hc, ← ih (i + 1)]
      simp [h, FundingAttempt.isConnError]
    | resp lfr =>
      cases lfr with
      | none =>
        simp [fetchFundingLoop, h, FundingAttempt.isConnError,
          List.range_succ, List.countP_cons]
      | some ns =>
        cases hN : pyFloat ns with
        | ok q =>
          simp [fetchFundingLoop, h, hN, FundingAttempt.isConnError,
            List.range_succ, List.countP_cons]
        | error e =>
          simp [fetchFundingLoop, h, hN, FundingAttempt.isConnError,
            List.range_succ, List.countP_cons]

lemma fetchFundingLoop_allconn (env : ℕ → FundingAttempt) :
    ∀ (fuel i : ℕ), (∀ k < fuel, env (i + k) = .connError) →
      fetchFundingLoop env i fuel = ⟨.ok none, fuel, fuel⟩ := by
  intro fuel
  induction fuel with
  | zero => intro i _; rfl
  | succ n ih =>
    intro i h
    have h0 : env i = .connError := by simpa using h 0 (by omega)
    have htail : ∀ k < n, env (i + 1 + k) = .connError := by
      intro k hk
      have := h (k + 1) (by omega)
      rwa [show i + (k + 1) = i + 1 + k from by omega] at this
    simp only [fetchFundingLoop, h0, ih (i + 1) htail]

/-- C7: `fetch_binance_funding_rate` issues at most 3 HTTP attempts; a
1-second sleep happens exactly after each attempt that failed with the
transient connection-error class; and when all three attempts fail with that
class the call performs 3 attempts and 3 sleeps and returns `None` (no
exception escapes). -/
theorem claim_C7_retry_policy :
    ∀ env : ℕ → FundingAttempt,
      (fetch_binance_funding_rate env).calls ≤ 3 ∧
      (fetch_binance_funding_rate env).sleeps
        = (List.range (fetch_binance_funding_rate env).calls).countP
            (fun i => (env i).isConnError) ∧
      ((∀ i < 3, env i = .connError) →
        (fetch_binance_funding_rate env).result = .ok none ∧
        (fetch_binance_funding_rate env).calls = 3 ∧
        (fetch_binance_funding_rate env).sleeps = 3) := by
  intro env
  refine ⟨fetchFundingLoop_calls_le env 3 0, ?_, ?_⟩
  · have h := fetchFundingLoop_sleeps env 3 0
    simpa [fetch_binance_funding_rate] using h
  · intro h
    have hall := fetchFundingLoop_allconn env 3 0 (fun k hk => by simpa using h k hk)
    rw [fetch_binance_funding_rate, hall]
    exact ⟨rfl, rfl, rfl⟩

/-- An attempt stream where every HTTP request dies with `ClientOSError`. -/
def connEnv : ℕ → FundingAttempt := fun _ => .connError

/-- Witness for C7 at the all-failures attempt stream. -/
theorem claim_C7_witness :
    (fetch_binance_funding_rate connEnv).calls ≤ 3 ∧
    (fetch_binance_funding_rate connEnv).result = .ok none ∧
    (fetch_binance_funding_rate connEnv).sleeps = 3 :=
  ⟨(claim_C7_retry_policy connEnv).1,
   ((claim_C7_retry_policy connEnv).2.2 (fun _ _ => rfl)).1,
   ((claim_C7_retry_policy connEnv).2.2 (fun _ _ => rfl)).2.2⟩

/-! ## C4 and C5: behaviour of the single-value fetchers on missing fields -/

/-- C4 counterexample: on a response with no `priceChangePercent` field,
`get_24hr_change` returns `some 0` (Python `float(0)`), not the
"unavailable" value `none` the claim asserts — the missing field maps to
zero. -/
theorem claim_C4_counterexample :
    get_24hr_change ⟨none⟩ = some 0 ∧ get_24hr_change ⟨none⟩ ≠ none :=
  ⟨rfl, by decide⟩

/-- C4 (amended): a missing `priceChangePercent` field yields `0.0` (the
`data.get(..., 0)` default), while a present but unparseable field yields
the unavailable value `None`. -/
theorem claim_C4_amended :
    (∀ data : ChangeResp, data.priceChangePercent = none →
      get_24hr_change data = some 0) ∧
    (∀ data : ChangeResp, data.priceChangePercent = some .malformed →
      get_24hr_change data = none) := by
  constructor
  · intro data h
    obtain ⟨pcp⟩ := data
    cases h
    rfl
  · intro data h
    obtain ⟨pcp⟩ := data
    cases h
    rfl

/-- Witness for the amended C4 at concrete responses. -/
theorem claim_C4_witness :
    get_24hr_change ⟨none⟩ = some 0 ∧
    get_24hr_change ⟨some .malformed⟩ = none :=
  ⟨claim_C4_amended.1 ⟨none⟩ rfl, claim_C4_amended.2 ⟨some .malformed⟩ rfl⟩

/-- C5 counterexample: on a response with no `price` field, `get_price`
returns the string `"0"` — exactly the same value it returns for a genuine
zero price, so the default is not a sentinel distinct from zero. -/
theorem claim_C5_counterexample :
    get_price ⟨none⟩ = "0" ∧ get_price ⟨none⟩ = get_price ⟨some "0"⟩ :=
  ⟨rfl, rfl⟩

/-- C5 (amended): a present `price` field is returned verbatim as a string;
a missing field falls back to the default string `"0"`, which is
indistinguishable from a zero price. -/
theorem claim_C5_amended :
    (∀ (data : PriceResp) (v : String), data.price = some v →
      get_price data = v) ∧
    (∀ data : PriceResp, data.price = none → get_price data = "0") := by
  constructor
  · intro data v h
    obtain ⟨pf⟩ := data
    cases h
    rfl
  · intro data h
    obtain ⟨pf⟩ := data
    cases h
    rfl

/-- Witness for the amended C5 at concrete responses. -/
theorem claim_C5_witness :
    get_price ⟨some "123.4"⟩ = "123.4" ∧ get_price ⟨none⟩ = "0" :=
  ⟨claim_C5_amended.1 ⟨some "123.4"⟩ "123.4" rfl, claim_C5_amended.2 ⟨none⟩ rfl⟩

/-! ## C6: a malformed percent value fails the whole ranking query -/

lemma parseChanges_error (l : List ChangeEntry)
    (h : ∃ e ∈ l, e.priceChangePercent = .malformed) :
    parseChanges l = .error .valueError := by
  induction l with
  | nil =>
    obtain ⟨e, he, _⟩ := h
    cases he
  | cons e rest ih =>
    obtain ⟨e2, he2, hm⟩ := h
    rcases List.mem_cons.1 he2 with heq | htail
    · subst heq
      simp only [parseChanges, hm]
      rfl
    · simp only [parseChanges]
      cases hp : pyFloat e.priceChangePercent with
      | error err =>
        cases err
        rfl
      | ok q =>
        rw [ih ⟨e2, htail, hm⟩]

lemma fundingDict_error (l : List FundingEntry)
    (h : ∃ e ∈ l, e.lastFundingRate = some .malformed) :
    ∀ acc, fundingDict acc l = .error .valueError := by
  induction l with
  | nil =>
    obtain ⟨e, he, _⟩ := h
    cases he
  | cons e rest ih =>
    intro acc
    obtain ⟨e2, he2, hm⟩ := h
    rcases List.mem_cons.1 he2 with heq | htail
    · subst heq
      simp only [fundingDict, entryRate, hm]
      rfl
    · simp only [fundingDict]
      cases hr : entryRate e with
      | error err =>
        cases err
        rfl
      | ok q =>
        exact ih ⟨e2, htail, hm⟩ _

/-- C6 counterexample: one entry whose percent value fails numeric parse
makes the whole query return `ValueError` — the entry is not excluded. -/
theorem claim_C6_counterexample :
    get_top_gainers_and_losers ["AUSDT"] [⟨"AUSDT", .malformed⟩] 5
        = .error .valueError ∧
    fetch_all_funding_rates [⟨"A", some .malformed⟩] = .error .valueError :=
  ⟨rfl, rfl⟩

/-- C6 (amended): if any entry surviving the symbol filter has an
unparseable percent value, `get_top_gainers_and_losers` fails whole with
`ValueError` (and likewise `fetch_all_funding_rates` for any entry with an
unparseable funding rate) instead of excluding the entry. -/
theorem claim_C6_amended :
    (∀ (futures_symbols : List String) (data : List ChangeEntry) (top_n : ℕ),
        (∃ e ∈ data.filter (fun item =>
            decide (item.symbol ∈ futures_symbols) && containsUSDT item.symbol),
          e.priceChangePercent = .malformed) →
        get_top_gainers_and_losers futures_symbols data top_n
          = .error .valueError) ∧
    (∀ data : List FundingEntry,
        (∃ e ∈ data, e.lastFundingRate = some .malformed) →
        fetch_all_funding_rates data = .error .valueError) := by
  constructor
  · intro fs data n h
    simp only [get_top_gainers_and_losers]
    rw [parseChanges_error _ h]
  · intro data h
    exact fundingDict_error data h []

/-- Witness for the amended C6 at concrete upstream data. -/
theorem claim_C6_witness :
    get_top_gainers_and_losers ["AUSDT"] [⟨"AUSDT", .malformed⟩] 3
        = .error .valueError ∧
    fetch_all_funding_rates [⟨"A", some .malformed⟩, ⟨"B", none⟩]
        = .error .valueError :=
  ⟨claim_C6_amended.1 ["AUSDT"] [⟨"AUSDT", .malformed⟩] 3 (by decide),
   claim_C6_amended.2 [⟨"A", some .malformed⟩, ⟨"B", none⟩] (by decide)⟩

/-! ## C1, C2, C3: the fan-out pair fetch -/

/-- The worked example of the spec: two overlapping keyword groups. -/
def exampleGroups : List (String × List String) :=
  [("user", ["BTCUSDT", "ETHUSDT"]), ("gainers", ["ETHUSDT", "SOLUSDT"])]

/-- A concrete cycle environment used to instantiate universally quantified
theorems. -/
def env0 : CycleEnv := ⟨fun _ => "1", fun _ => none, fun _ => none⟩

/-- C1: any referenced symbol (in particular one referenced by several
groups or several times) has each of its three fetch tasks enqueued exactly
once per cycle; every group's output carries, for each of its references to
a symbol, the identical composed snapshot built from that single fetch; and
on the worked example the three distinct symbols are fetched with duplicate
count 1, ETHUSDT's snapshot appearing identically in both group outputs. -/
theorem claim_C1_dedup_replication :
    (∀ (groups : List (String × List String)) (env : CycleEnv) (p : String),
        p ∈ (refsList groups).map Prod.snd →
        ((fetchPairPhase1 groups).tasks.count (.price p) = 1 ∧
         (fetchPairPhase1 groups).tasks.count (.funding p) = 1 ∧
         (fetchPairPhase1 groups).tasks.count (.change p) = 1) ∧
        (∀ g : String,
          ((fetch_pair_data env groups).1 g).filter (fun s => s.1 = p)
            = List.replicate ((refsList groups).count (g, p)) (snapOf env p))) ∧
    ((fetchPairPhase1 exampleGroups).pairs_names
        = ["BTCUSDT", "ETHUSDT", "SOLUSDT"] ∧
     (fetchPairPhase1 exampleGroups).dups = 1 ∧
     ∀ env : CycleEnv,
       ((fetch_pair_data env exampleGroups).1 "user").filter
           (fun s => s.1 = "ETHUSDT") = [snapOf env "ETHUSDT"] ∧
       ((fetch_pair_data env exampleGroups).1 "gainers").filter
           (fun s => s.1 = "ETHUSDT") = [snapOf env "ETHUSDT"]) := by
  constructor
  · intro groups env p hp
    constructor
    · obtain ⟨_, _, htasks, _, _⟩ := phase1Refs_spec (refsList groups)
      have hone : (namesOf (refsList groups)).count p = 1 :=
        List.count_eq_one_of_mem (namesOf_nodup _) ((mem_namesOf _ p).2 hp)
      rw [fetchPairPhase1_eq, htasks]
      exact ⟨by rw [count_trip_price, hone], by rw [count_trip_funding, hone],
        by rw [count_trip_change, hone]⟩
    · intro g
      exact fetch_pair_data_filter env groups g p
  · exact ⟨rfl, rfl, fun env => ⟨rfl, rfl⟩⟩

/-- Witness for C1 at the worked example and a concrete environment. -/
theorem claim_C1_witness :
    ((fetchPairPhase1 exampleGroups).tasks.count (.price "ETHUSDT") = 1 ∧
     (fetchPairPhase1 exampleGroups).tasks.count (.funding "ETHUSDT") = 1 ∧
     (fetchPairPhase1 exampleGroups).tasks.count (.change "ETHUSDT") = 1) ∧
    ((fetch_pair_data env0 exampleGroups).1 "user").filter
        (fun s => s.1 = "ETHUSDT")
      = List.replicate ((refsList exampleGroups).count ("user", "ETHUSDT"))
          (snapOf env0 "ETHUSDT") :=
  ⟨(claim_C1_dedup_replication.1 exampleGroups env0 "ETHUSDT" (by decide)).1,
   (claim_C1_dedup_replication.1 exampleGroups env0 "ETHUSDT" (by decide)).2
     "user"⟩

/-- C2 counterexample: for groups `g1 = ["A"]` and `g2 = ["B", "A"]`, the
output sequence of `g2` lists its symbols as `["A", "B"]` — the global
first-occurrence order — not in `g2`'s own input order `["B", "A"]`, so
relative order within a group is not preserved. -/
theorem claim_C2_counterexample :
    ((fetch_pair_data env0 [("g1", ["A"]), ("g2", ["B", "A"])]).1 "g2").map
        (fun s => s.1) = ["A", "B"] ∧
    (["A", "B"] : List String) ≠ ["B", "A"] :=
  ⟨rfl, by decide⟩

/-- C2 (amended): each group's output has exactly one snapshot per input
reference (so its length equals the group's input length), but the rows are
ordered by the first-occurrence order of symbols across all supplied groups,
with a symbol's copies consecutive — which matches the group's own input
order only when that order agrees with global first-occurrence order. -/
theorem claim_C2_length_and_order :
    ∀ (groups : List (String × List String)) (env : CycleEnv) (g : String)
      (gl : List String),
      (groups.map Prod.fst).Nodup → (g, gl) ∈ groups →
      ((fetch_pair_data env groups).1 g).length = gl.length ∧
      ((fetch_pair_data env groups).1 g).map (fun s => s.1)
        = (namesOf (refsList groups)).flatMap
            (fun p => List.replicate ((refsList groups).count (g, p)) p) := by
  intro groups env g gl hnd hmem
  refine ⟨fetch_pair_data_length env groups g gl hnd hmem, ?_⟩
  rw [fetch_pair_data_fst, List.map_flatMap]
  exact congrArg _ (funext (fun p => by
    rw [List.map_replicate, groupsOfSym_count]
    rfl))

/-- Witness for the amended C2 at the worked example. -/
theorem claim_C2_witness :
    ((fetch_pair_data env0 exampleGroups).1 "gainers").length
      = (["ETHUSDT", "SOLUSDT"] : List String).length ∧
    ((fetch_pair_data env0 exampleGroups).1 "gainers").map (fun s => s.1)
      = (namesOf (refsList exampleGroups)).flatMap
          (fun p => List.replicate
            ((refsList exampleGroups).count ("gainers", p)) p) :=
  claim_C2_length_and_order exampleGroups env0 "gainers" ["ETHUSDT", "SOLUSDT"]
    (by decide) (by decide)

/-- C3: the count returned by `fetch_pair_data` is the number of distinct
symbols fetched plus the duplicate count, and that sum equals the total
number of symbol references across all input groups. -/
theorem claim_C3_total_count :
    ∀ (groups : List (String × List String)) (env : CycleEnv),
      (fetch_pair_data env groups).2
        = (fetchPairPhase1 groups).pairs_names.length
            + (fetchPairPhase1 groups).dups ∧
      (fetch_pair_data env groups).2
        = (groups.map (fun gp => gp.2.length)).sum := by
  intro groups env
  refine ⟨rfl, ?_⟩
  show (fetchPairPhase1 groups).pairs_names.length
      + (fetchPairPhase1 groups).dups = _
  obtain ⟨_, hpairs, _, hdups, _⟩ := phase1Refs_spec (refsList groups)
  rw [fetchPairPhase1_eq, hpairs]
  have hlen : (refsList groups).length
      = (groups.map (fun gp => gp.2.length)).sum := by
    unfold refsList
    rw [List.length_flatMap]
    congr 1
    apply List.map_congr_left
    intro gp _
    show (gp.2.map (fun p => (gp.1, p))).length = _
    rw [List.length_map]
  omega

/-! ## C8 and C10: ranking query filters, slice bounds, and overlap -/

lemma fetch_top_funded_pairs_ok (data : List FundingEntry)
    (fr : List (String × ℚ)) (n : ℕ)
    (hf : fetch_all_funding_rates data = .ok fr) :
    fetch_top_funded_pairs data n = .ok
      ((pySliceFirst ((pySortedByRate fr).filter
          (fun x => containsUSDT x.1)) n).map Prod.fst,
       (pySliceLast ((pySortedByRate fr).filter
          (fun x => containsUSDT x.1)) n).map Prod.fst) := by
  simp only [fetch_top_funded_pairs]
  rw [hf]

lemma fetch_top_funded_pairs_error (data : List FundingEntry) (e : PyError)
    (n : ℕ) (hf : fetch_all_funding_rates data = .error e) :
    fetch_top_funded_pairs data n = .error e := by
  simp only [fetch_top_funded_pairs]
  rw [hf]

lemma get_top_gainers_and_losers_ok (futures_symbols : List String)
    (data : List ChangeEntry) (keyed : List (String × ℚ)) (n : ℕ)
    (hp : parseChanges (data.filter (fun item =>
        decide (item.symbol ∈ futures_symbols) && containsUSDT item.symbol))
      = .ok keyed) :
    get_top_gainers_and_losers futures_symbols data n = .ok
      ((pySliceFirst (pySortedByChangeDesc keyed) n).map Prod.fst,
       (pySliceLast (pySortedByChangeDesc keyed) n).map Prod.fst) := by
  simp only [get_top_gainers_and_losers]
  rw [hp]

lemma get_top_gainers_and_losers_error (futures_symbols : List String)
    (data : List ChangeEntry) (e : PyError) (n : ℕ)
    (hp : parseChanges (data.filter (fun item =>
        decide (item.symbol ∈ futures_symbols) && containsUSDT item.symbol))
      = .error e) :
    get_top_gainers_and_losers futures_symbols data n = .error e := by
  simp only [get_top_gainers_and_losers]
  rw [hp]

lemma pySliceLast_subset {α : Type} (l : List α) (n : ℕ) :
    pySliceLast l n ⊆ l := by
  unfold pySliceLast
  by_cases h : n = 0
  · rw [if_pos h]
    exact fun a ha => ha
  · rw [if_neg h]
    exact List.drop_subset _ l

lemma pySliceLast_length_le {α : Type} (l : List α) (n : ℕ) (hn : 1 ≤ n) :
    (pySliceLast l n).length ≤ n := by
  unfold pySliceLast
  rw [if_neg (by omega)]
  rw [List.length_drop]
  omega

lemma parseChanges_ok_syms (l : List ChangeEntry) :
    ∀ keyed, parseChanges l = .ok keyed →
      keyed.map Prod.fst = l.map (fun e => e.symbol) := by
  induction l with
  | nil =>
    intro keyed h
    injection h with h2
    rw [← h2]
    rfl
  | cons e rest ih =>
    intro keyed h
    simp only [parseChanges] at h
    cases hp : pyFloat e.priceChangePercent with
    | error err =>
      rw [hp] at h
      cases h
    | ok q =>
      rw [hp] at h
      cases hr : parseChanges rest with
      | error err =>
        rw [hr] at h
        cases h
      | ok tail =>
        rw [hr] at h
        injection h with h2
        rw [← h2, List.map_cons, ih tail hr]
        rfl

/-- C8 counterexample: at `top_n = 0` the tail slice `l[-0:]` is the whole
list, so the "longed" side of `fetch_top_funded_pairs` returns one entry
even though the claim promises at most `n = 0` entries per side. -/
theorem claim_C8_counterexample :
    fetch_top_funded_pairs [⟨"AUSDT", none⟩] 0 = .ok ([], ["AUSDT"]) ∧
    ¬ ((["AUSDT"] : List String).length ≤ 0) :=
  ⟨rfl, by decide⟩

/-- C8 (amended): for every `top_n ≥ 1` (at `top_n = 0` Python's `l[-0:]`
slice returns the whole list), both ranking queries return only symbols
containing the `"USDT"` quote substring, and at most `top_n` entries per
side. -/
theorem claim_C8_usdt_and_bounds :
    ∀ top_n : ℕ, 1 ≤ top_n →
      (∀ (data : List FundingEntry) (shorted longed : List String),
          fetch_top_funded_pairs data top_n = .ok (shorted, longed) →
          (∀ s ∈ shorted, containsUSDT s = true) ∧
          (∀ s ∈ longed, containsUSDT s = true) ∧
          shorted.length ≤ top_n ∧ longed.length ≤ top_n) ∧
      (∀ (futures_symbols : List String) (data : List ChangeEntry)
          (gainers losers : List String),
          get_top_gainers_and_losers futures_symbols data top_n
            = .ok (gainers, losers) →
          (∀ s ∈ gainers, containsUSDT s = true) ∧
          (∀ s ∈ losers, containsUSDT s = true) ∧
          gainers.length ≤ top_n ∧ losers.length ≤ top_n) := by
  intro n hn
  constructor
  · intro data sh lg h
    cases hf : fetch_all_funding_rates data with
    | error e =>
      rw [fetch_top_funded_pairs_error data e n hf] at h
      cases h
    | ok fr =>
      rw [fetch_top_funded_pairs_ok data fr n hf] at h
      injection h with h2
      rw [Prod.mk.injEq] at h2
      obtain ⟨hsh, hlg⟩ := h2
      have husdt : ∀ x ∈ (pySortedByRate fr).filter
          (fun x => containsUSDT x.1), containsUSDT x.1 = true :=
        fun x hx => (List.mem_filter.1 hx).2
      refine ⟨?_, ?_, ?_, ?_⟩
      · intro s hs
        rw [← hsh] at hs
        obtain ⟨x, hx, hxe⟩ := List.mem_map.1 hs
        rw [← hxe]
        exact husdt x (List.take_subset _ _ hx)
      · intro s hs
        rw [← hlg] at hs
        obtain ⟨x, hx, hxe⟩ := List.mem_map.1 hs
        rw [← hxe]
        exact husdt x (pySliceLast_subset _ _ hx)
      · rw [← hsh, List.length_map]
        exact List.length_take_le _ _
      · rw [← hlg, List.length_map]
        exact pySliceLast_length_le _ _ hn
  · intro fs data ga lo h
    cases hp : parseChanges (data.filter (fun item =>
        decide (item.symbol ∈ fs) && containsUSDT item.symbol)) with
    | error e =>
      rw [get_top_gainers_and_losers_error fs data e n hp] at h
      cases h
    | ok keyed =>
      rw [get_top_gainers_and_losers_ok fs data keyed n hp] at h
      injection h with h2
      rw [Prod.mk.injEq] at h2
      obtain ⟨hga, hlo⟩ := h2
      have hmemk : ∀ x ∈ pySortedByChangeDesc keyed, containsUSDT x.1 = true := by
        intro x hx
        have hxk : x ∈ keyed :=
          (List.perm_insertionSort _ keyed).subset hx
        have hx1 : x.1 ∈ keyed.map Prod.fst := List.mem_map.2 ⟨x, hxk, rfl⟩
        rw [parseChanges_ok_syms _ keyed hp] at hx1
        obtain ⟨e, he, hes⟩ := List.mem_map.1 hx1
        have hpred := (List.mem_filter.1 he).2
        rw [Bool.and_eq_true] at hpred
        rw [← hes]
        exact hpred.2
      refine ⟨?_, ?_, ?_, ?_⟩
      · intro s hs
        rw [← hga] at hs
        obtain ⟨x, hx, hxe⟩ := List.mem_map.1 hs
        rw [← hxe]
        exact hmemk x (List.take_subset _ _ hx)
      · intro s hs
        rw [← hlo] at hs
        obtain ⟨x, hx, hxe⟩ := List.mem_map.1 hs
        rw [← hxe]
        exact hmemk x (pySliceLast_subset _ _ hx)
      · rw [← hga, List.length_map]
        exact List.length_take_le _ _
      · rw [← hlo, List.length_map]
        exact pySliceLast_length_le _ _ hn

/-- Witness for the amended C8 at a concrete one-symbol universe. -/
theorem claim_C8_witness :
    (∀ s ∈ (["AUSDT"] : List String), containsUSDT s = true) ∧
    (∀ s ∈ (["AUSDT"] : List String), containsUSDT s = true) ∧
    (["AUSDT"] : List String).length ≤ 1 ∧
    (["AUSDT"] : List String).length ≤ 1 :=
  (claim_C8_usdt_and_bounds 1 (by decide)).1 [⟨"AUSDT", none⟩]
    ["AUSDT"] ["AUSDT"] rfl

/-- C10: with a USDT-filtered universe of one symbol and `top_n = 5` (so
fewer than `2 * top_n` entries), the same symbol appears on both sides of
`fetch_top_funded_pairs` and of `get_top_gainers_and_losers`, because both
sides are slices of one sorted list. -/
theorem claim_C10_sides_overlap :
    fetch_top_funded_pairs [⟨"AUSDT", some (.num 1)⟩] 5
        = .ok (["AUSDT"], ["AUSDT"]) ∧
    get_top_gainers_and_losers ["AUSDT"] [⟨"AUSDT", .num 2⟩] 5
        = .ok (["AUSDT"], ["AUSDT"]) ∧
    "AUSDT" ∈ (["AUSDT"] : List String) ∧
    (["AUSDT"] : List String).length < 2 * 5 :=
  ⟨rfl, rfl, by decide, by decide⟩

/-! ## C9: next funding settlement and countdown formatting -/

/-- C9: `get_next_funding_time` returns the least settlement instant
(00:00, 08:00 or 16:00 UTC, rolling to the next day after 16:00) strictly
after the current time; and `format_timedelta` renders a non-negative whole
number of seconds as zero-padded `HH:MM:SS` whose hours field is the total
hour count `td / 3600`, not reduced modulo 24. -/
theorem claim_C9_countdown :
    (∀ now : UTCTime, now.secs < 86400 →
        isFundingSettlement (get_next_funding_time now) ∧
        now.toSecs < (get_next_funding_time now).toSecs ∧
        (∀ t : UTCTime, isFundingSettlement t →
          now.toSecs < t.toSecs →
          (get_next_funding_time now).toSecs ≤ t.toSecs)) ∧
    (∀ total_seconds : ℤ, 0 ≤ total_seconds →
        ∃ h m s : ℤ,
          total_seconds = 3600 * h + 60 * m + s ∧
          0 ≤ m ∧ m < 60 ∧ 0 ≤ s ∧ s < 60 ∧
          h = total_seconds / 3600 ∧
          format_timedelta total_seconds
            = pad2 h ++ ":" ++ pad2 m ++ ":" ++ pad2 s) := by
  constructor
  · intro now hv
    by_cases h8 : now.hour < 8
    · have he : get_next_funding_time now = ⟨now.day, 8 * 3600⟩ := by
        unfold get_next_funding_time
        rw [if_pos h8]
      unfold UTCTime.hour at h8
      rw [he]
      refine ⟨Or.inr (Or.inl rfl), ?_, ?_⟩
      · show now.day * 86400 + now.secs < now.day * 86400 + 8 * 3600
        omega
      · intro t ht hlt
        show now.day * 86400 + 8 * 3600 ≤ t.day * 86400 + t.secs
        unfold UTCTime.toSecs at hlt
        rcases ht with h0 | h0 | h0 <;> rw [h0] at hlt ⊢ <;> omega
    · by_cases h16 : now.hour < 16
      · have he : get_next_funding_time now = ⟨now.day, 16 * 3600⟩ := by
          unfold get_next_funding_time
          rw [if_neg h8, if_pos h16]
        unfold UTCTime.hour at h8 h16
        rw [he]
        refine ⟨Or.inr (Or.inr rfl), ?_, ?_⟩
        · show now.day * 86400 + now.secs < now.day * 86400 + 16 * 3600
          omega
        · intro t ht hlt
          show now.day * 86400 + 16 * 3600 ≤ t.day * 86400 + t.secs
          unfold UTCTime.toSecs at hlt
          rcases ht with h0 | h0 | h0 <;> rw [h0] at hlt ⊢ <;> omega
      · have he : get_next_funding_time now = ⟨now.day + 1, 0⟩ := by
          unfold get_next_funding_time
          rw [if_neg h8, if_neg h16]
        unfold UTCTime.hour at h8 h16
        rw [he]
        refine ⟨Or.inl rfl, ?_, ?_⟩
        · show now.day * 86400 + now.secs < (now.day + 1) * 86400 + 0
          omega
        · intro t ht hlt
          show (now.day + 1) * 86400 + 0 ≤ t.day * 86400 + t.secs
          unfold UTCTime.toSecs at hlt
          rcases ht with h0 | h0 | h0 <;> rw [h0] at hlt ⊢ <;> omega
  · intro td h
    refine ⟨td / 3600, (td % 3600) / 60, (td % 3600) % 60,
      ?_, ?_, ?_, ?_, ?_, rfl, rfl⟩
    · omega
    · omega
    · omega
    · omega
    · omega

/-- Witness for C9 at 17:00 UTC and at a 25-hour duration. -/
theorem claim_C9_witness :
    isFundingSettlement (get_next_funding_time ⟨0, 61200⟩) ∧
    (⟨0, 61200⟩ : UTCTime).toSecs
      < (get_next_funding_time ⟨0, 61200⟩).toSecs ∧
    (get_next_funding_time ⟨0, 61200⟩).toSecs ≤ (⟨1, 0⟩ : UTCTime).toSecs ∧
    (∃ h m s : ℤ, (90061 : ℤ) = 3600 * h + 60 * m + s ∧
      0 ≤ m ∧ m < 60 ∧ 0 ≤ s ∧ s < 60 ∧ h = (90061 : ℤ) / 3600 ∧
      format_timedelta 90061 = pad2 h ++ ":" ++ pad2 m ++ ":" ++ pad2 s) :=
  ⟨(claim_C9_countdown.1 ⟨0, 61200⟩ (by decide)).1,
   (claim_C9_countdown.1 ⟨0, 61200⟩ (by decide)).2.1,
   (claim_C9_countdown.1 ⟨0, 61200⟩ (by decide)).2.2 ⟨1, 0⟩ (Or.inl rfl)
     (by decide),
   claim_C9_countdown.2 90061 (by decide)⟩

end BinanceWatch
